import Mathlib

/-!
Shallow embedding of the transform pipeline in `src/main.py` (a pandas
script deriving per-year population metrics from tidy observations).
Tabular rows become lists of records; pandas column arithmetic becomes
exact rational arithmetic (the spec's floating-point tolerances are met
by proving exact equalities); the IEEE-754 edge behaviour of numpy/pandas
division and power (division by zero giving signed infinities or NaN,
fractional powers of negatives giving NaN) is modelled by an extended
value type `Fv` with explicit `pinf`, `ninf` and `nan` constructors.
-/

/-- One tidy observation, a row of `df_long` in `main.py` (lines 30-35):
state name, year extracted from the `POPESTIMATE` column label, and the
population cell value. -/
structure Obs where
  state : String
  year : ℕ
  population : ℤ
deriving DecidableEq, Repr

/-- `df_long.groupby('year')['population'].sum()` restricted to year `y`
(main.py lines 43-47): the total population over all filtered rows of
that year. -/
def usTotal (l : List Obs) (y : ℕ) : ℤ :=
  ((l.filter (fun o => o.year == y)).map (fun o => o.population)).sum

/-- `df_long.groupby('year')['population'].rank(ascending=False,
method='min')` evaluated at row `o` (main.py line 50): one plus the
number of rows of the same year with strictly larger population.  This is
exactly pandas' descending min-rank (standard competition ranking). -/
def rankVal (l : List Obs) (o : Obs) : ℕ :=
  1 + (l.filter (fun t => t.year == o.year && decide (o.population < t.population))).length

/-- `(ny['population'] / ny['us_population']) * 100` generalised to any
row (main.py line 55): the row's share of the national total of its
year, in percent, as an exact rational. -/
def share (l : List Obs) (o : Obs) : ℚ :=
  ((o.population : ℚ) / ((usTotal l o.year : ℤ) : ℚ)) * 100

/-- Helper: splitting a year-restricted population count at a threshold
value `b`: the rows with population `≥ b` are the rows with population
`> b` together with the rows with population `= b`. -/
theorem length_filter_le_split (l : List Obs) (y : ℕ) (b : ℤ) :
    (l.filter (fun t => t.year == y && decide (b ≤ t.population))).length =
      (l.filter (fun t => t.year == y && decide (b < t.population))).length +
      (l.filter (fun t => t.year == y && t.population == b)).length := by
  induction l with
  | nil => simp
  | cons t l ih =>
    simp only [List.filter_cons]
    by_cases hy : t.year = y
    · rcases lt_trichotomy b t.population with hlt | heq | hgt
      · have c1 : (t.year == y && decide (b ≤ t.population)) = true := by
          simp [hy, le_of_lt hlt]
        have c2 : (t.year == y && decide (b < t.population)) = true := by
          simp [hy, hlt]
        have c3 : (t.year == y && t.population == b) = false := by
          simp only [hy, beq_self_eq_true, Bool.true_and, beq_eq_false_iff_ne, ne_eq]
          omega
        simp [c1, c2, c3]
        omega
      · have c1 : (t.year == y && decide (b ≤ t.population)) = true := by
          simp [hy, le_of_eq heq]
        have c2 : (t.year == y && decide (b < t.population)) = false := by
          simp [hy]
          omega
        have c3 : (t.year == y && t.population == b) = true := by
          simp [hy, heq.symm]
        simp [c1, c2, c3]
        omega
      · have c1 : (t.year == y && decide (b ≤ t.population)) = false := by
          simp [hy]
          omega
        have c2 : (t.year == y && decide (b < t.population)) = false := by
          simp [hy]
          omega
        have c3 : (t.year == y && t.population == b) = false := by
          simp only [hy, beq_self_eq_true, Bool.true_and, beq_eq_false_iff_ne, ne_eq]
          omega
        simp [c1, c2, c3]
        omega
    · have hyb : (t.year == y) = false := by simpa using hy
      simp [hyb]
      omega

/-- C1: per-year descending min-rank semantics of `df_long['rank']`
(main.py line 50).  (a) two rows of the same year with equal population
get equal rank; (b) a rank-1 row's population is greatest in its year;
(c) if `o2` carries the next distinct population value below a tied
group at `o.population` (nothing strictly between), then `o2`'s rank is
`o`'s rank plus the size of the tied group, not plus one. -/
theorem rank_min_tie_ranking (l : List Obs) :
    (∀ o ∈ l, ∀ o2 ∈ l, o.year = o2.year → o.population = o2.population →
      rankVal l o = rankVal l o2) ∧
    (∀ o ∈ l, rankVal l o = 1 →
      ∀ t ∈ l, t.year = o.year → t.population ≤ o.population) ∧
    (∀ o ∈ l, ∀ o2 ∈ l, o2.year = o.year → o2.population < o.population →
      (∀ t ∈ l, t.year = o.year →
        ¬(o2.population < t.population ∧ t.population < o.population)) →
      rankVal l o2 = rankVal l o +
        (l.filter (fun t => t.year == o.year && t.population == o.population)).length) := by
  refine ⟨?_, ?_, ?_⟩
  · intro o _ o2 _ hy hp
    simp only [rankVal, hy, hp]
  · intro o _ hr t ht hty
    simp only [rankVal] at hr
    have h0 : (l.filter (fun t => t.year == o.year && decide (o.population < t.population))).length = 0 := by
      omega
    rw [List.length_eq_zero] at h0
    have := List.filter_eq_nil_iff.mp h0 t ht
    simp only [hty, beq_self_eq_true, Bool.true_and, decide_eq_true_eq] at this
    omega
  · intro o _ o2 _ hy hlt hgap
    have hcongr :
        l.filter (fun t => t.year == o.year && decide (o2.population < t.population)) =
        l.filter (fun t => t.year == o.year && decide (o.population ≤ t.population)) := by
      apply List.filter_congr
      intro t ht
      by_cases hty : t.year = o.year
      · simp only [hty, beq_self_eq_true, Bool.true_and, decide_eq_decide]
        constructor
        · intro h2
          by_contra hno
          exact hgap t ht hty ⟨h2, lt_of_not_le hno⟩
        · intro hle
          exact lt_of_lt_of_le hlt hle
      · have : (t.year == o.year) = false := by
          simpa using hty
        simp [this]
    have hsplit := length_filter_le_split l o.year o.population
    simp only [rankVal, hy, hcongr, hsplit]
    omega

/-- Witness for `rank_min_tie_ranking` on a concrete table: in year 2010
the populations are 9, 7, 7, 5, so the two rows at 7 share rank 2 and
the row at 5 gets rank 4 = 2 + 2. -/
theorem rank_min_tie_ranking_witness :
    (⟨ "D", 2010, 5⟩ : Obs) ∈
        [(⟨ "A", 2010, 9⟩ : Obs), ⟨ "B", 2010, 7⟩, ⟨ "C", 2010, 7⟩, ⟨ "D", 2010, 5⟩] ∧
    rankVal [(⟨ "A", 2010, 9⟩ : Obs), ⟨ "B", 2010, 7⟩, ⟨ "C", 2010, 7⟩, ⟨ "D", 2010, 5⟩]
      ⟨ "D", 2010, 5⟩ =
    rankVal [(⟨ "A", 2010, 9⟩ : Obs), ⟨ "B", 2010, 7⟩, ⟨ "C", 2010, 7⟩, ⟨ "D", 2010, 5⟩]
      ⟨ "B", 2010, 7⟩ +
      ([(⟨ "A", 2010, 9⟩ : Obs), ⟨ "B", 2010, 7⟩, ⟨ "C", 2010, 7⟩, ⟨ "D", 2010, 5⟩].filter
        (fun t => t.year == 2010 && t.population == 7)).length := by
  refine ⟨by decide, ?_⟩
  exact (rank_min_tie_ranking
      [(⟨ "A", 2010, 9⟩ : Obs), ⟨ "B", 2010, 7⟩, ⟨ "C", 2010, 7⟩, ⟨ "D", 2010, 5⟩]).2.2
    ⟨ "B", 2010, 7⟩ (by decide) ⟨ "D", 2010, 5⟩ (by decide) (by decide) (by decide)
    (by decide)

/-- Helper: pulling a constant right factor out of a list sum. -/
theorem sum_map_mul_const (l : List Obs) (f : Obs → ℚ) (r : ℚ) :
    (l.map (fun o => f o * r)).sum = (l.map f).sum * r := by
  induction l with
  | nil => simp
  | cons o l ih => simp [ih, add_mul]

/-- C2: for any year whose national total is nonzero, the shares of all
rows of that year (main.py lines 43-47 and 55) sum to exactly 100. -/
theorem share_sum_is_100 (l : List Obs) (y : ℕ) (h : usTotal l y ≠ 0) :
    ((l.filter (fun o => o.year == y)).map (fun o => share l o)).sum = 100 := by
  have hy : ∀ o ∈ l.filter (fun o => o.year == y), o.year = y := by
    intro o ho
    have := (List.mem_filter.mp ho).2
    simpa using this
  have hmap :
      (l.filter (fun o => o.year == y)).map (fun o => share l o) =
      (l.filter (fun o => o.year == y)).map
        (fun o => (o.population : ℚ) * ((100 : ℚ) / ((usTotal l y : ℤ) : ℚ))) := by
    apply List.map_congr_left
    intro o ho
    rw [share, hy o ho]
    ring
  have hcast :
      ((l.filter (fun o => o.year == y)).map (fun o => (o.population : ℚ))).sum =
      ((usTotal l y : ℤ) : ℚ) := by
    rw [usTotal, Int.cast_list_sum, List.map_map]
    rfl
  have hT : ((usTotal l y : ℤ) : ℚ) ≠ 0 := Int.cast_ne_zero.mpr h
  rw [hmap, sum_map_mul_const, hcast]
  field_simp

/-- Witness for `share_sum_is_100` on a two-state table for year 2010
with populations 100 and 300: the shares 25 and 75 sum to 100. -/
theorem share_sum_is_100_witness :
    usTotal [(⟨ "A", 2010, 100⟩ : Obs), ⟨ "B", 2010, 300⟩] 2010 ≠ 0 ∧
    (([(⟨ "A", 2010, 100⟩ : Obs), ⟨ "B", 2010, 300⟩].filter
        (fun o => o.year == 2010)).map
      (fun o => share [(⟨ "A", 2010, 100⟩ : Obs), ⟨ "B", 2010, 300⟩] o)).sum = 100 := by
  refine ⟨by decide, ?_⟩
  exact share_sum_is_100 [(⟨ "A", 2010, 100⟩ : Obs), ⟨ "B", 2010, 300⟩] 2010 (by decide)

/-- Extended value: a finite number, a signed infinity, or NaN.  Models
the IEEE-754 non-finite outcomes that numpy/pandas float arithmetic can
produce (division by zero, fractional powers of negatives) without
modelling rounding; finite payloads stay exact. -/
inductive Fv (A : Type) where
  | fin : A → Fv A
  | pinf : Fv A
  | ninf : Fv A
  | nan : Fv A
deriving DecidableEq, Repr

/-- Whether an extended value is finite. -/
def Fv.isFin {A : Type} : Fv A → Bool
  | .fin _ => true
  | _ => false

/-- Helper for `withPrev`: pairs each remaining row with `f` applied to
the previous row's population and its own, mirroring a pandas shifted
column computation. -/
def diffGo {B : Type} (f : ℤ → ℤ → B) : ℤ → List (ℕ × ℤ) → List (ℕ × ℤ × B)
  | _, [] => []
  | prev, c :: cs => (c.1, c.2, f prev c.2) :: diffGo f c.2 cs

/-- A pandas shifted-column derivation over a (year, population) series:
the first row gets the sentinel `first` (pandas yields NaN there), every
later row gets `f` of the previous row's population and its own. -/
def withPrev {B : Type} (f : ℤ → ℤ → B) (first : B) : List (ℕ × ℤ) → List (ℕ × ℤ × B)
  | [] => []
  | x :: xs => (x.1, x.2, first) :: diffGo f x.2 xs

/-- `ny['population'].diff()` (main.py line 58): year-over-year change,
absent (`none`, pandas NaN) on the first row. -/
def yoyChange (s : List (ℕ × ℤ)) : List (ℕ × ℤ × Option ℤ) :=
  withPrev (fun p c => some (c - p)) none s

/-- One step of `ny['population'].pct_change() * 100` (main.py line 59)
under numpy float semantics: previous population zero gives NaN (0/0) or
a signed infinity (x/0), otherwise the exact percentage. -/
def pct (p c : ℤ) : Fv ℚ :=
  if p = 0 then (if c = 0 then .nan else if 0 < c then .pinf else .ninf)
  else .fin (((c : ℚ) / (p : ℚ) - 1) * 100)

/-- `ny['population'].pct_change() * 100` (main.py line 59): the first
row gets NaN, every later row gets `pct` of the previous and current
populations. -/
def yoyPct (s : List (ℕ × ℤ)) : List (ℕ × ℤ × Fv ℚ) :=
  withPrev pct .nan s

/-- Helper: in a series strictly sorted by year, two rows whose years
are consecutive integers are adjacent in the list. -/
theorem adjacent_of_consecutive_years (s : List (ℕ × ℤ)) (y : ℕ) (q p : ℤ) :
    s.Pairwise (fun a b => a.1 < b.1) → (y, q) ∈ s → (y + 1, p) ∈ s →
    ∃ l1 l2, s = l1 ++ (y, q) :: (y + 1, p) :: l2 := by
  induction s with
  | nil =>
    intro _ h0 _
    cases h0
  | cons c rest ih =>
    intro hs h0 h1
    have hlt := (List.pairwise_cons.mp hs).1
    have hrest := (List.pairwise_cons.mp hs).2
    rcases List.mem_cons.mp h0 with he0 | hm0
    · rcases List.mem_cons.mp h1 with he1 | hm1
      · exfalso
        have heq := he0.trans he1.symm
        simp only [Prod.mk.injEq] at heq
        omega
      · cases rest with
        | nil => cases hm1
        | cons d rest2 =>
          rcases List.mem_cons.mp hm1 with he1 | hm1
          · refine ⟨[], rest2, ?_⟩
            simp only [List.nil_append]
            rw [← he0, ← he1]
          · exfalso
            have hd : d.1 < y + 1 := by
              have := (List.pairwise_cons.mp hrest).1 (y + 1, p) hm1
              simpa using this
            have hcd : y < d.1 := by
              have := hlt d (List.mem_cons_self d rest2)
              rw [← he0] at this
              simpa using this
            omega
    · rcases List.mem_cons.mp h1 with he1 | hm1
      · exfalso
        have := hlt (y, q) hm0
        rw [← he1] at this
        simp only at this
        omega
      · obtain ⟨l1, l2, hdecomp⟩ := ih hrest hm0 hm1
        refine ⟨c :: l1, l2, ?_⟩
        rw [hdecomp]
        rfl

/-- Helper: `diffGo` applied past a prefix reaches any adjacent pair. -/
theorem diffGo_adjacent {B : Type} (f : ℤ → ℤ → B) (a b : ℕ × ℤ) (l2 : List (ℕ × ℤ)) :
    ∀ (l1 : List (ℕ × ℤ)) (prev : ℤ),
      (b.1, b.2, f a.2 b.2) ∈ diffGo f prev (l1 ++ a :: b :: l2) := by
  intro l1
  induction l1 with
  | nil =>
    intro prev
    simp only [List.nil_append, diffGo]
    exact List.mem_cons_of_mem _ (List.mem_cons_self _ _)
  | cons x l1 ih =>
    intro prev
    simp only [List.cons_append, diffGo]
    exact List.mem_cons_of_mem _ (ih x.2)

/-- Helper: a `withPrev` derivation contains the entry for the second
row of any adjacent pair, computed from the first. -/
theorem withPrev_adjacent {B : Type} (f : ℤ → ℤ → B) (first : B)
    (s l1 l2 : List (ℕ × ℤ)) (a b : ℕ × ℤ)
    (hdecomp : s = l1 ++ a :: b :: l2) :
    (b.1, b.2, f a.2 b.2) ∈ withPrev f first s := by
  subst hdecomp
  cases l1 with
  | nil =>
    simp only [List.nil_append, withPrev, diffGo]
    exact List.mem_cons_of_mem _ (List.mem_cons_self _ _)
  | cons x l1 =>
    simp only [List.cons_append, withPrev]
    exact List.mem_cons_of_mem _ (diffGo_adjacent f a b l2 l1 x.2)

/-- C3: over a focus series strictly sorted by year (main.py line 40
sorts by year; (state, year) is a key), both `ny['yoy_change']`
(line 58) and `ny['yoy_pct']` (line 59) are undefined for the first
row — `none`, respectively the NaN that pandas shows as missing — and
for any two rows at consecutive years `y` and `y + 1` the yoy_change
entry at `y + 1` is exactly the population difference. -/
theorem yoy_first_none_and_diff (s : List (ℕ × ℤ))
    (hs : s.Pairwise (fun a b => a.1 < b.1)) :
    ((yoyChange s).head? = s.head?.map (fun x => (x.1, x.2, (none : Option ℤ)))) ∧
    ((yoyPct s).head? = s.head?.map (fun x => (x.1, x.2, (Fv.nan : Fv ℚ)))) ∧
    (∀ (y : ℕ) (q p : ℤ), (y, q) ∈ s → (y + 1, p) ∈ s →
      (y + 1, p, some (p - q)) ∈ yoyChange s) := by
  refine ⟨?_, ?_, ?_⟩
  · cases s with
    | nil => rfl
    | cons x xs => rfl
  · cases s with
    | nil => rfl
    | cons x xs => rfl
  · intro y q p h0 h1
    obtain ⟨l1, l2, hdecomp⟩ := adjacent_of_consecutive_years s y q p hs h0 h1
    exact withPrev_adjacent _ _ s l1 l2 (y, q) (y + 1, p) hdecomp

/-- Witness for `yoy_first_none_and_diff` on the two-row series
2010 ↦ 100, 2011 ↦ 150: the first yoy_change entry is `none`, the first
yoy_pct entry is NaN, and the 2011 yoy_change entry is `some 50`. -/
theorem yoy_first_none_and_diff_witness :
    ([((2010 : ℕ), (100 : ℤ)), (2011, 150)] : List (ℕ × ℤ)).Pairwise (fun a b => a.1 < b.1) ∧
    (yoyChange [(2010, 100), (2011, 150)]).head? = some ((2010 : ℕ), (100 : ℤ), none) ∧
    (yoyPct [(2010, 100), (2011, 150)]).head? = some ((2010 : ℕ), (100 : ℤ), Fv.nan) ∧
    ((2011 : ℕ), (150 : ℤ), some (50 : ℤ)) ∈ yoyChange [(2010, 100), (2011, 150)] := by
  have h := yoy_first_none_and_diff [(2010, 100), (2011, 150)] (by decide)
  refine ⟨by decide, ?_, ?_, ?_⟩
  · simpa using h.1
  · simpa using h.2.1
  · have hm := h.2.2 2010 100 150 (by decide) (by decide)
    simpa using hm

/-- C4 counterexample: on the series 2010 ↦ 0, 2011 ↦ 5, the code's
`pct_change` column (main.py line 59) carries positive infinity at 2011
— a defined infinite float, not an absent value as the claim states. -/
theorem yoy_pct_zero_prior_counterexample :
    yoyPct [(2010, 0), (2011, 5)] =
      [((2010 : ℕ), (0 : ℤ), (Fv.nan : Fv ℚ)), (2011, 5, Fv.pinf)] ∧
    (Fv.pinf : Fv ℚ) ≠ Fv.nan := by
  constructor
  · rfl
  · decide

/-- C4 as amended: when a row's prior-year population is zero, the
computation does not crash and yields no finite percentage: the entry is
NaN (current also zero) or a signed infinity, never `Fv.fin`. -/
theorem yoy_pct_zero_prior_nonfinite (s : List (ℕ × ℤ))
    (hs : s.Pairwise (fun a b => a.1 < b.1)) (y : ℕ) (p : ℤ)
    (h0 : (y, 0) ∈ s) (h1 : (y + 1, p) ∈ s) :
    ∃ v : Fv ℚ, (y + 1, p, v) ∈ yoyPct s ∧ v.isFin = false := by
  obtain ⟨l1, l2, hdecomp⟩ := adjacent_of_consecutive_years s y 0 p hs h0 h1
  refine ⟨pct 0 p, withPrev_adjacent _ _ s l1 l2 (y, 0) (y + 1, p) hdecomp, ?_⟩
  simp only [pct]
  split_ifs with h1 h2 h3 <;> simp_all [Fv.isFin]

/-- Witness for `yoy_pct_zero_prior_nonfinite` at the series
2010 ↦ 0, 2011 ↦ 5. -/
theorem yoy_pct_zero_prior_nonfinite_witness :
    ([((2010 : ℕ), (0 : ℤ)), (2011, 5)] : List (ℕ × ℤ)).Pairwise (fun a b => a.1 < b.1) ∧
    ∃ v : Fv ℚ, ((2011 : ℕ), (5 : ℤ), v) ∈ yoyPct [(2010, 0), (2011, 5)] ∧ v.isFin = false := by
  constructor
  · decide
  · have h := yoy_pct_zero_prior_nonfinite [(2010, 0), (2011, 5)] (by decide)
      2010 5 (by decide) (by decide)
    simpa using h

/-- numpy float division `a / b` on real payloads (the two operands of
main.py line 65 are finite data values): division by zero yields NaN for
0/0 and a signed infinity otherwise, never an exception (numpy emits a
warning and continues). -/
noncomputable def npDiv (a b : ℝ) : Fv ℝ :=
  if b = 0 then (if a = 0 then .nan else if 0 < a then .pinf else .ninf)
  else .fin (a / b)

/-- numpy float power `x ** (1 / span)` (main.py line 65, span = 9):
a fractional power of a negative base yields NaN; a fractional power of
positive infinity stays positive infinity; NaN propagates.  `span = 1`
makes the exponent 1.0, where a negative base is fine. -/
noncomputable def npRootSpan : Fv ℝ → ℕ → Fv ℝ
  | .fin a, n => if n = 1 then .fin a else if a < 0 then .nan else .fin (a ^ ((n : ℝ))⁻¹)
  | .pinf, _ => .pinf
  | .ninf, n => if n = 1 then .ninf else .nan
  | .nan, _ => .nan

/-- Subtracting 1, with infinities and NaN absorbed (IEEE). -/
noncomputable def fvSubOne : Fv ℝ → Fv ℝ
  | .fin a => .fin (a - 1)
  | .pinf => .pinf
  | .ninf => .ninf
  | .nan => .nan

/-- Multiplying by 100, with infinities and NaN absorbed (IEEE). -/
noncomputable def fvMulHundred : Fv ℝ → Fv ℝ
  | .fin a => .fin (a * 100)
  | .pinf => .pinf
  | .ninf => .ninf
  | .nan => .nan

/-- `cagr = ((last_pop / base_pop) ** (1/years_span) - 1) * 100`
(main.py line 65, with `years_span = 9` hardcoded there as the 2010→2019
window length). -/
noncomputable def cagr (base last : ℝ) (span : ℕ) : Fv ℝ :=
  fvMulHundred (fvSubOne (npRootSpan (npDiv last base) span))

/-- C5: with a positive starting population, a nonnegative ending
population and a positive span, `cagr` is the finite value
`100 × ((P1/P0) ^ (1/N) − 1)`, and that value `c` inverts exactly:
`P0 × (1 + c/100) ^ N = P1`. -/
theorem cagr_formula_and_inverse (base last : ℝ) (span : ℕ)
    (hb : 0 < base) (hl : 0 ≤ last) (hs : 0 < span) :
    ∃ c : ℝ, cagr base last span = Fv.fin c ∧
      c = ((last / base) ^ (1 / (span : ℝ)) - 1) * 100 ∧
      base * (1 + c / 100) ^ span = last := by
  have hx : (0 : ℝ) ≤ last / base := div_nonneg hl hb.le
  have hdiv : npDiv last base = .fin (last / base) := by
    rw [npDiv, if_neg hb.ne']
  have hroot : npRootSpan (npDiv last base) span = .fin ((last / base) ^ (1 / (span : ℝ))) := by
    rw [hdiv]
    by_cases h1 : span = 1
    · subst h1
      simp [npRootSpan, Real.rpow_one]
    · rw [npRootSpan, if_neg h1, if_neg (not_lt.mpr hx), one_div]
  refine ⟨((last / base) ^ (1 / (span : ℝ)) - 1) * 100, ?_, rfl, ?_⟩
  · rw [cagr, hroot]
    rfl
  · have hsimp : 1 + ((last / base) ^ (1 / (span : ℝ)) - 1) * 100 / 100 =
        (last / base) ^ (1 / (span : ℝ)) := by
      ring
    rw [hsimp, ← Real.rpow_natCast ((last / base) ^ (1 / (span : ℝ))) span,
      ← Real.rpow_mul hx]
    have hspan : (1 / (span : ℝ)) * (span : ℕ) = 1 := by
      have : (span : ℝ) ≠ 0 := Nat.cast_ne_zero.mpr hs.ne'
      field_simp
    rw [hspan, Real.rpow_one, mul_div_cancel₀ last hb.ne']

/-- Witness for `cagr_formula_and_inverse` at base 1, last 1, span 9. -/
theorem cagr_formula_and_inverse_witness :
    (0 : ℝ) < 1 ∧ (0 : ℝ) ≤ 1 ∧ 0 < 9 ∧
    ∃ c : ℝ, cagr 1 1 9 = Fv.fin c ∧
      c = (((1 : ℝ) / 1) ^ (1 / (9 : ℝ)) - 1) * 100 ∧
      (1 : ℝ) * (1 + c / 100) ^ 9 = 1 := by
  exact ⟨by norm_num, by norm_num, by norm_num,
    cagr_formula_and_inverse 1 1 9 (by norm_num) (by norm_num) (by norm_num)⟩

/-- C6: with a nonpositive starting population (and a positive ending
one, or a starting population of exactly zero — populations are never
negative in the data), the CAGR computation of main.py line 65 does not
raise: it totalizes to a non-finite sentinel (±∞ or NaN), never a
finite growth figure.  The span hypothesis matches the hardcoded
`years_span = 9`. -/
theorem cagr_nonpositive_base_nonfinite (base last : ℝ) (span : ℕ)
    (hb : base ≤ 0) (hspan : 1 < span) (hl : 0 < last ∨ base = 0) :
    (cagr base last span).isFin = false := by
  have hs1 : span ≠ 1 := by omega
  by_cases hb0 : base = 0
  · subst hb0
    rw [cagr, npDiv, if_pos rfl]
    by_cases hl0 : last = 0
    · rw [if_pos hl0]
      rfl
    · rw [if_neg hl0]
      by_cases hlpos : 0 < last
      · rw [if_pos hlpos]
        rfl
      · rw [if_neg hlpos, npRootSpan, if_neg hs1]
        rfl
  · have hbneg : base < 0 := lt_of_le_of_ne hb hb0
    have hlpos : 0 < last := by
      rcases hl with h | h
      · exact h
      · exact absurd h hb0
    have hx : last / base < 0 := div_neg_of_pos_of_neg hlpos hbneg
    rw [cagr, npDiv, if_neg hb0, npRootSpan, if_neg hs1, if_pos hx]
    rfl

/-- Witness for `cagr_nonpositive_base_nonfinite` at base 0, last 5,
span 9. -/
theorem cagr_nonpositive_base_nonfinite_witness :
    (0 : ℝ) ≤ 0 ∧ 1 < 9 ∧ ((0 : ℝ) < 5 ∨ (0 : ℝ) = 0) ∧
    (cagr 0 5 9).isFin = false := by
  exact ⟨le_refl 0, by norm_num, Or.inl (by norm_num),
    cagr_nonpositive_base_nonfinite 0 5 9 (le_refl 0) (by norm_num) (Or.inl (by norm_num))⟩

/-- Helper for `peakRow`: scan mirroring `Series.idxmax`, keeping the
current best and replacing it only on a strictly larger population, so
the first occurrence of the maximum wins (as idxmax does). -/
def peakGo : (ℕ × ℤ) → List (ℕ × ℤ) → (ℕ × ℤ)
  | cur, [] => cur
  | cur, r :: rs => peakGo (if cur.2 < r.2 then r else cur) rs

/-- `ny.loc[ny['population'].idxmax()]` (main.py line 67): the row of the
focus series with the maximum population, `none` on an empty series. -/
def peakRow : List (ℕ × ℤ) → Option (ℕ × ℤ)
  | [] => none
  | x :: xs => some (peakGo x xs)

/-- Helper: the scan result is the start element or a list element, is
at least the start element, and dominates every list element. -/
theorem peakGo_spec (rs : List (ℕ × ℤ)) :
    ∀ cur : ℕ × ℤ, (peakGo cur rs = cur ∨ peakGo cur rs ∈ rs) ∧
      cur.2 ≤ (peakGo cur rs).2 ∧ ∀ r ∈ rs, r.2 ≤ (peakGo cur rs).2 := by
  induction rs with
  | nil =>
    intro cur
    exact ⟨Or.inl rfl, le_refl _, by simp⟩
  | cons r rs ih =>
    intro cur
    obtain ⟨hmem, hge, hall⟩ := ih (if cur.2 < r.2 then r else cur)
    have hnext : cur.2 ≤ (if cur.2 < r.2 then r else cur).2 := by
      split
      · omega
      · exact le_refl _
    have hr : r.2 ≤ (if cur.2 < r.2 then r else cur).2 := by
      split
      · exact le_refl _
      · omega
    refine ⟨?_, le_trans hnext hge, ?_⟩
    · rcases hmem with h | h
      · rw [peakGo, h]
        split
        · exact Or.inr (List.mem_cons_self _ _)
        · exact Or.inl rfl
      · exact Or.inr (List.mem_cons_of_mem _ h)
    · intro t ht
      rcases List.mem_cons.mp ht with h | h
      · rw [h]
        exact le_trans hr hge
      · exact hall t h

/-- C7: on a nonempty focus series, `peakRow` returns a row of the
series whose population dominates every row of the whole series — the
maximum is taken over all years present, with no window restriction
anywhere in the definition. -/
theorem peak_row_is_max (s : List (ℕ × ℤ)) (hne : s ≠ []) :
    ∃ pr, peakRow s = some pr ∧ pr ∈ s ∧ ∀ r ∈ s, r.2 ≤ pr.2 := by
  cases s with
  | nil => exact absurd rfl hne
  | cons x xs =>
    obtain ⟨hmem, hge, hall⟩ := peakGo_spec xs x
    refine ⟨peakGo x xs, rfl, ?_, ?_⟩
    · rcases hmem with h | h
      · rw [h]
        exact List.mem_cons_self _ _
      · exact List.mem_cons_of_mem _ h
    · intro r hr
      rcases List.mem_cons.mp hr with h | h
      · rw [h]
        exact hge
      · exact hall r h

/-- Witness for `peak_row_is_max` on the series 2010 ↦ 3, 2011 ↦ 7,
2012 ↦ 5: the peak is the 2011 row. -/
theorem peak_row_is_max_witness :
    ([((2010 : ℕ), (3 : ℤ)), (2011, 7), (2012, 5)] : List (ℕ × ℤ)) ≠ [] ∧
    ∃ pr, peakRow [((2010 : ℕ), (3 : ℤ)), (2011, 7), (2012, 5)] = some pr ∧
      pr ∈ ([((2010 : ℕ), (3 : ℤ)), (2011, 7), (2012, 5)] : List (ℕ × ℤ)) ∧
      ∀ r ∈ ([((2010 : ℕ), (3 : ℤ)), (2011, 7), (2012, 5)] : List (ℕ × ℤ)), r.2 ≤ pr.2 := by
  exact ⟨by decide, peak_row_is_max [(2010, 3), (2011, 7), (2012, 5)] (by decide)⟩

/-- One row of the filtered wide table `df_states[keep_cols]` (main.py
lines 29-31): a state name together with its population cell for each
year column.  The cell map stands for the row's `POPESTIMATE<year>`
columns; `melt` below only reads it at the years actually listed. -/
structure WideRow where
  state : String
  cell : ℕ → ℤ

/-- `df.melt(id_vars=['NAME','STATE'], ...)` followed by the year
extraction (main.py lines 30-34): one observation per (year column,
state row) pair, carrying the original cell value.  pandas stacks
column-major (all rows of the first year column, then the next), which
the outer flatMap mirrors; the claim is order-independent. -/
def melt (years : List ℕ) (rows : List WideRow) : List Obs :=
  years.flatMap (fun y => rows.map (fun r => ⟨r.state, y, r.cell y⟩))

/-- Re-pivoting the long table to wide, indexed by (state, year): the
population of the observation keyed by that pair, if any. -/
def pivot (l : List Obs) (s : String) (y : ℕ) : Option ℤ :=
  (l.find? (fun o => o.state == s && o.year == y)).map (fun o => o.population)

/-- Helper: searching one melted year block for a state present in the
wide rows finds exactly that state's cell for the block's year. -/
theorem find_in_melt_block (rows : List WideRow) (r : WideRow) (y : ℕ)
    (hnd : (rows.map (fun w => w.state)).Nodup) (hr : r ∈ rows) :
    (rows.map (fun w => (⟨w.state, y, w.cell y⟩ : Obs))).find?
        (fun o => o.state == r.state && o.year == y) =
      some ⟨r.state, y, r.cell y⟩ := by
  induction rows with
  | nil => cases hr
  | cons w rows ih =>
    simp only [List.map_cons, List.nodup_cons] at hnd
    rcases List.mem_cons.mp hr with he | hm
    · subst he
      simp [List.find?_cons]
    · have hne : w.state ≠ r.state := by
        intro hcontra
        exact hnd.1 (hcontra ▸ List.mem_map_of_mem (fun w => w.state) hm)
      have hpred : ((⟨w.state, y, w.cell y⟩ : Obs).state == r.state &&
          (⟨w.state, y, w.cell y⟩ : Obs).year == y) = false := by
        simp [hne]
      rw [List.map_cons, List.find?_cons_of_neg _ (by simp [hpred, hne]), ih hnd.2 hm]

/-- C8: melting the wide table to long form and re-pivoting by
(state, year) reproduces every original cell exactly, for every state
row and every year column, provided state names are distinct (they are:
the filtered table has one row per state). -/
theorem melt_pivot_roundtrip (years : List ℕ) (rows : List WideRow)
    (r : WideRow) (y : ℕ)
    (hnd : (rows.map (fun w => w.state)).Nodup) (hy : y ∈ years) (hr : r ∈ rows) :
    pivot (melt years rows) r.state y = some (r.cell y) := by
  induction years with
  | nil => cases hy
  | cons y0 years ih =>
    rw [pivot, melt, List.flatMap_cons, List.find?_append]
    by_cases hy0 : y0 = y
    · subst hy0
      rw [find_in_melt_block rows r y0 hnd hr]
      rfl
    · have hblock : (rows.map (fun w => (⟨w.state, y0, w.cell y0⟩ : Obs))).find?
          (fun o => o.state == r.state && o.year == y) = none := by
        rw [List.find?_eq_none]
        intro o ho
        obtain ⟨w, _, hw⟩ := List.mem_map.mp ho
        subst hw
        simp [hy0]
      rw [hblock, Option.none_or]
      have hy' : y ∈ years := by
        rcases List.mem_cons.mp hy with h | h
        · exact absurd h.symm hy0
        · exact h
      exact ih hy'

/-- Witness for `melt_pivot_roundtrip`: two states, two year columns;
the (B, 2011) cell value 42 survives the round trip. -/
theorem melt_pivot_roundtrip_witness :
    ([(⟨ "B", fun _ => 42⟩ : WideRow), ⟨ "A", fun y => (y : ℤ)⟩].map
      (fun w => w.state)).Nodup ∧
    (2011 : ℕ) ∈ [(2010 : ℕ), 2011] ∧
    (⟨ "B", fun _ => 42⟩ : WideRow) ∈ [(⟨ "B", fun _ => 42⟩ : WideRow), ⟨ "A", fun y => (y : ℤ)⟩] ∧
    pivot (melt [2010, 2011] [(⟨ "B", fun _ => 42⟩ : WideRow), ⟨ "A", fun y => (y : ℤ)⟩])
      (⟨ "B", fun _ => (42 : ℤ)⟩ : WideRow).state 2011 = some 42 := by
  refine ⟨by decide, by decide, List.mem_cons_self _ _, ?_⟩
  exact melt_pivot_roundtrip [2010, 2011] [⟨ "B", fun _ => 42⟩, ⟨ "A", fun y => (y : ℤ)⟩]
    ⟨ "B", fun _ => 42⟩ 2011 (by decide) (by decide) (List.mem_cons_self _ _)

/-- One row of the comparison frame `comp` (main.py lines 73-77): an
observation of one of the compared states, with the per-year rank
already attached by line 50. -/
structure CompRow where
  state : String
  year : ℕ
  population : ℤ
  rank : ℕ
deriving DecidableEq, Repr

/-- `df_long[df_long['state'].isin(compare_states)][['state', 'year',
'population', 'rank']]` (main.py lines 74-77).  The sort by state and
year is omitted: the claims about `comp` are order-independent. -/
def compFrame (l : List Obs) (states : List String) : List CompRow :=
  (l.filter (fun o => states.contains o.state)).map
    (fun o => ⟨o.state, o.year, o.population, rankVal l o⟩)

/-- `comp['year'].max()` (main.py line 180): the single global maximum
year over the whole comparison frame. -/
def maxYearC (c : List CompRow) : ℕ :=
  (c.map (fun r => r.year)).foldr max 0

/-- `last_pts = comp[comp['year'] == last_year]` (main.py line 181): the
rows the chart labels, selected by the one global maximum year. -/
def lastPts (c : List CompRow) : List CompRow :=
  c.filter (fun r => r.year == maxYearC c)

/-- Helper: every year in the frame is at most the folded maximum. -/
theorem year_le_maxYearC (c : List CompRow) (r : CompRow) (hr : r ∈ c) :
    r.year ≤ maxYearC c := by
  rw [maxYearC]
  induction c with
  | nil => cases hr
  | cons x c ih =>
    rcases List.mem_cons.mp hr with h | h
    · subst h
      simp only [List.map_cons, List.foldr_cons]
      omega
    · have := ih h
      simp only [List.map_cons, List.foldr_cons]
      omega

/-- Helper: a fold of `max` over a list of naturals all bounded by `B`
stays bounded by `B`. -/
theorem foldr_max_le_of_forall_le (ys : List ℕ) (B : ℕ) (h : ∀ y ∈ ys, y ≤ B) :
    ys.foldr max 0 ≤ B := by
  induction ys with
  | nil => simp
  | cons y ys ih =>
    simp only [List.foldr_cons]
    have h1 := h y (List.mem_cons_self y ys)
    have h2 := ih (fun z hz => h z (List.mem_cons_of_mem y hz))
    omega

/-- Helper: if some row's year dominates all years of the frame, the
folded maximum is that year. -/
theorem maxYearC_eq_of_dominant (c : List CompRow) (r : CompRow)
    (hr : r ∈ c) (hdom : ∀ t ∈ c, t.year ≤ r.year) :
    maxYearC c = r.year := by
  have hle : maxYearC c ≤ r.year := by
    rw [maxYearC]
    apply foldr_max_le_of_forall_le
    intro y hy
    obtain ⟨t, ht, hty⟩ := List.mem_map.mp hy
    exact hty ▸ hdom t ht
  exact le_antisymm hle (year_le_maxYearC c r hr)

/-- C9 counterexample: with state A present in 2010 and 2011 but state B
present only in 2010, the label rows of main.py line 181 are selected by
the single global maximum year 2011, so B — although in the comparison
frame — gets no label row at all, contradicting the claimed per-state
maximum-year selection. -/
theorem last_pts_global_year_counterexample :
    (∃ r ∈ compFrame
        [(⟨ "A", 2010, 5⟩ : Obs), ⟨ "A", 2011, 6⟩, ⟨ "B", 2010, 7⟩]
        [ "A", "B"], r.state = "B") ∧
    (∀ r ∈ lastPts (compFrame
        [(⟨ "A", 2010, 5⟩ : Obs), ⟨ "A", 2011, 6⟩, ⟨ "B", 2010, 7⟩]
        [ "A", "B"]), r.state ≠ "B") := by
  decide

/-- C9 as amended: a row is exposed for labeling exactly when it is a
comparison-frame row whose year is the global maximum year of the frame
(i.e. its year dominates every row of every state), not the per-state
maximum. -/
theorem last_pts_iff_global_max_year (c : List CompRow) (r : CompRow) :
    r ∈ lastPts c ↔ (r ∈ c ∧ ∀ t ∈ c, t.year ≤ r.year) := by
  constructor
  · intro h
    obtain ⟨hmem, hyear⟩ := List.mem_filter.mp h
    have hyr : r.year = maxYearC c := by simpa using hyear
    refine ⟨hmem, ?_⟩
    intro t ht
    rw [hyr]
    exact year_le_maxYearC c t ht
  · intro ⟨hmem, hdom⟩
    apply List.mem_filter.mpr
    refine ⟨hmem, ?_⟩
    simp [maxYearC_eq_of_dominant c r hmem hdom]

/-- `df_long[df_long['state'] == focus]` (main.py lines 40 and 51): the
focus state's observations. -/
def focusRows (l : List Obs) (f : String) : List Obs :=
  l.filter (fun o => o.state == f)

/-- The distinct years of the long table, the group keys of
`df_long.groupby('year')` (main.py line 44). -/
def yearsOf (l : List Obs) : List ℕ :=
  (l.map (fun o => o.year)).dedup

/-- The national series `us` (main.py lines 43-47): one (year, total)
entry per distinct year of the long table. -/
def usSeries (l : List Obs) : List (ℕ × ℤ) :=
  (yearsOf l).map (fun y => (y, usTotal l y))

/-- One merged row of `ny` after the two left-joins of main.py line 54:
year and population from the focus rows, national total and rank from
the year-keyed lookups, absent (`none`) when the join key is missing on
the right side. -/
structure NyRow where
  year : ℕ
  population : ℤ
  us_population : Option ℤ
  rank : Option ℕ
deriving DecidableEq, Repr

/-- `ny.merge(us, on='year', how='left').merge(ny_rank, on='year',
how='left')` (main.py lines 40-54): each focus row looks up its year in
the national series and in the focus state's (year, rank) pairs.  The
sort by year (line 40) is omitted: it permutes rows and cannot change
any row's lookups. -/
def focusJoined (l : List Obs) (f : String) : List NyRow :=
  (focusRows l f).map (fun o =>
    ⟨o.year, o.population,
      ((usSeries l).find? (fun e => e.1 == o.year)).map (fun e => e.2),
      (((focusRows l f).map (fun t => (t.year, rankVal l t))).find?
        (fun e => e.1 == o.year)).map (fun e => e.2)⟩)

/-- C10: both left-joins of main.py line 54 always hit: the national
series and the rank series are derived from the same observations that
produced the focus rows, so every merged row has a present national
total and a present rank. -/
theorem focus_join_defined (l : List Obs) (f : String) :
    ∀ row ∈ focusJoined l f, row.us_population.isSome ∧ row.rank.isSome := by
  intro row hrow
  obtain ⟨o, ho, hmap⟩ := List.mem_map.mp hrow
  have hol : o ∈ l := List.mem_of_mem_filter ho
  subst hmap
  constructor
  · simp only [Option.isSome_map']
    rw [List.find?_isSome]
    refine ⟨(o.year, usTotal l o.year), ?_, by simp⟩
    apply List.mem_map_of_mem
    rw [yearsOf, List.mem_dedup]
    exact List.mem_map_of_mem (fun o => o.year) hol
  · simp only [Option.isSome_map']
    rw [List.find?_isSome]
    exact ⟨(o.year, rankVal l o), List.mem_map_of_mem _ ho, by simp⟩

/-- Witness for `focus_join_defined` on a two-state table: the New York
row joins a national total of 300 and a rank of 2. -/
theorem focus_join_defined_witness :
    (⟨2010, 100, some 300, some 2⟩ : NyRow) ∈
      focusJoined [(⟨ "New York", 2010, 100⟩ : Obs), ⟨ "California", 2010, 200⟩] "New York" ∧
    ((⟨2010, 100, some 300, some 2⟩ : NyRow).us_population.isSome ∧
      (⟨2010, 100, some 300, some 2⟩ : NyRow).rank.isSome) := by
  refine ⟨by decide, ?_⟩
  exact focus_join_defined
    [(⟨ "New York", 2010, 100⟩ : Obs), ⟨ "California", 2010, 200⟩] "New York"
    ⟨2010, 100, some 300, some 2⟩ (by decide)
